import Mathlib

/-!
Shallow embedding of the endpoint execution pipeline of the `rustify` crate
(URL building, body building, client execution, response parsing, middleware,
and the body/query resolution performed by the `rustify_derive` macro),
together with theorems settling the specification claims about it.

Machine integers (`u16` status codes, `u8` bytes) are modelled as `Nat`
(values are bounded by construction where it matters); `Vec<u8>` is
`List UInt8`; fallible Rust functions returning `Result<T, ClientError>`
are modelled as `Except ClientError T`.
-/

namespace Rustify

/-- HTTP request methods (`src/enums.rs`, `RequestMethod`). -/
inductive RequestMethod where
  | CONNECT | DELETE | GET | HEAD | LIST | OPTIONS | PATCH | POST | PUT | TRACE
deriving DecidableEq, Repr

/-- Request body content types (`src/enums.rs`, `RequestType`). JSON only. -/
inductive RequestType where
  | JSON
deriving DecidableEq, Repr

/-- Response body content types (`src/enums.rs`, `ResponseType`). JSON only. -/
inductive ResponseType where
  | JSON
deriving DecidableEq, Repr

/-- The error enum of `src/errors.rs` (`ClientError`).  Constructors keep the
data that the claims are about (status codes, response content); the wrapped
`source` errors of the Rust type (foreign error values from `serde`, `http`,
`url`, ...) carry no information relevant to any claim and are dropped. -/
inductive ClientError where
  | DataParseError
  | EndpointBuildError
  | GenericError
  | RequestError (url : String) (method : RequestMethod)
  | RequestBuildError (method : RequestMethod) (url : String)
  | ResponseError
  | ResponseConversionError (content : List UInt8)
  | ResponseParseError (content : Option String)
  | ServerResponseError (code : Nat) (content : Option String)
  | UrlBuildError
  | UrlQueryParseError
  | UrlParseError
deriving DecidableEq, Repr

/-- Decode a UTF-8 byte sequence into characters, models Rust
`String::from_utf8` (the exact byte-pattern table of RFC 3629 that the Rust
standard library implements: no overlong forms, no surrogates, at most
U+10FFFF). Returns `none` on invalid input. -/
def utf8DecodeAux : List UInt8 → Option (List Char)
  | [] => some []
  | b1 :: rest =>
    let n1 := b1.toNat
    if n1 < 0x80 then
      (utf8DecodeAux rest).map (fun cs => Char.ofNat n1 :: cs)
    else if 0xC2 ≤ n1 ∧ n1 ≤ 0xDF then
      match rest with
      | [] => none
      | b2 :: rest2 =>
        let n2 := b2.toNat
        if 0x80 ≤ n2 ∧ n2 ≤ 0xBF then
          (utf8DecodeAux rest2).map (fun cs => Char.ofNat ((n1 - 0xC0) * 64 + (n2 - 0x80)) :: cs)
        else none
    else if 0xE0 ≤ n1 ∧ n1 ≤ 0xEF then
      match rest with
      | b2 :: b3 :: rest3 =>
        let n2 := b2.toNat
        let n3 := b3.toNat
        let lo2 := if n1 = 0xE0 then 0xA0 else 0x80
        let hi2 := if n1 = 0xED then 0x9F else 0xBF
        if (lo2 ≤ n2 ∧ n2 ≤ hi2) ∧ (0x80 ≤ n3 ∧ n3 ≤ 0xBF) then
          (utf8DecodeAux rest3).map
            (fun cs => Char.ofNat ((n1 - 0xE0) * 4096 + (n2 - 0x80) * 64 + (n3 - 0x80)) :: cs)
        else none
      | _ => none
    else if 0xF0 ≤ n1 ∧ n1 ≤ 0xF4 then
      match rest with
      | b2 :: b3 :: b4 :: rest4 =>
        let n2 := b2.toNat
        let n3 := b3.toNat
        let n4 := b4.toNat
        let lo2 := if n1 = 0xF0 then 0x90 else 0x80
        let hi2 := if n1 = 0xF4 then 0x8F else 0xBF
        if (lo2 ≤ n2 ∧ n2 ≤ hi2) ∧ (0x80 ≤ n3 ∧ n3 ≤ 0xBF) ∧ (0x80 ≤ n4 ∧ n4 ≤ 0xBF) then
          (utf8DecodeAux rest4).map
            (fun cs =>
              Char.ofNat
                ((n1 - 0xF0) * 262144 + (n2 - 0x80) * 4096 + (n3 - 0x80) * 64 + (n4 - 0x80)) :: cs)
        else none
      | _ => none
    else none

/-- Models `String::from_utf8(bytes).ok()`. -/
def utf8Decode (bs : List UInt8) : Option String :=
  (utf8DecodeAux bs).map fun cs => String.mk cs

/-- Encode one character as UTF-8 bytes (standard encoding, as Rust
`str::as_bytes` produces for that character). -/
def utf8EncodeChar (c : Char) : List UInt8 :=
  let n := c.toNat
  if n < 0x80 then [UInt8.ofNat n]
  else if n < 0x800 then [UInt8.ofNat (0xC0 + n / 64), UInt8.ofNat (0x80 + n % 64)]
  else if n < 0x10000 then
    [UInt8.ofNat (0xE0 + n / 4096), UInt8.ofNat (0x80 + n / 64 % 64), UInt8.ofNat (0x80 + n % 64)]
  else
    [UInt8.ofNat (0xF0 + n / 262144), UInt8.ofNat (0x80 + n / 4096 % 64),
      UInt8.ofNat (0x80 + n / 64 % 64), UInt8.ofNat (0x80 + n % 64)]

/-- Models Rust `s.as_bytes().to_vec()` for a string `s`. -/
def utf8Encode (s : String) : List UInt8 :=
  (s.data.map utf8EncodeChar).flatten

/-- JSON values, models `serde_json::Value` as far as the claims need it.
Numbers are modelled as integers (the claims never involve fractional
numbers). The `obj` field list keeps insertion order, matching the order in
which `serde_json` serializes the fields of a struct (declaration order). -/
inductive Json where
  | null
  | bool (b : Bool)
  | num (n : Int)
  | str (s : String)
  | arr (elems : List Json)
  | obj (fields : List (String × Json))

mutual

/-- Models `serde_json::to_string` on a `Json` value.  String contents are
emitted verbatim (the model covers strings that need no escaping). -/
def Json.render : Json → String
  | .null => "null"
  | .bool true => "true"
  | .bool false => "false"
  | .num n => toString n
  | .str s => "\"" ++ s ++ "\""
  | .arr es => "[" ++ Json.renderItems es ++ "]"
  | .obj fs => "\x7b" ++ Json.renderFields fs ++ "\x7d"

/-- Comma-separated rendering of array items. -/
def Json.renderItems : List Json → String
  | [] => ""
  | [v] => Json.render v
  | v :: rest => Json.render v ++ "," ++ Json.renderItems rest

/-- Comma-separated rendering of object fields. -/
def Json.renderFields : List (String × Json) → String
  | [] => ""
  | [(k, v)] => "\"" ++ k ++ "\":" ++ Json.render v
  | (k, v) :: rest => "\"" ++ k ++ "\":" ++ Json.render v ++ "," ++ Json.renderFields rest

end

/-- Whitespace predicate of the JSON grammar. -/
def jsonWs (c : Char) : Bool :=
  c = ' ' || c = '\n' || c = '\t' || c = '\r'

/-- A digit recognizer for the JSON number grammar. -/
def jsonDigit (c : Char) : Bool :=
  '0' ≤ c && c ≤ '9'

/-- Digits of a number literal folded into a natural number. -/
def jsonDigitsVal (ds : List Char) : Nat :=
  ds.foldl (fun acc c => acc * 10 + (c.toNat - '0'.toNat)) 0

mutual

/-- One value of the fueled recursive-descent JSON parser that models
`serde_json`'s grammar (integers only for numbers, escape-free strings).
Returns the value and the unconsumed input.  The fuel only serves
termination; `jsonParse` supplies enough for any input. -/
def jsonParseVal : Nat → List Char → Option (Json × List Char)
  | 0, _ => none
  | _ + 1, 'n' :: 'u' :: 'l' :: 'l' :: rest => some (Json.null, rest)
  | _ + 1, 't' :: 'r' :: 'u' :: 'e' :: rest => some (Json.bool true, rest)
  | _ + 1, 'f' :: 'a' :: 'l' :: 's' :: 'e' :: rest => some (Json.bool false, rest)
  | _ + 1, '"' :: rest =>
    let content := rest.takeWhile (fun c => ¬(c = '"' || c = '\\'))
    match rest.dropWhile (fun c => ¬(c = '"' || c = '\\')) with
    | '"' :: rest2 => some (Json.str (String.mk content), rest2)
    | _ => none
  | fuel + 1, '[' :: rest =>
    match rest.dropWhile jsonWs with
    | ']' :: rest2 => some (Json.arr [], rest2)
    | rest2 =>
      match jsonParseItems fuel rest2 with
      | some (items, ']' :: rest3) => some (Json.arr items, rest3)
      | _ => none
  | fuel + 1, '\x7b' :: rest =>
    match rest.dropWhile jsonWs with
    | '\x7d' :: rest2 => some (Json.obj [], rest2)
    | rest2 =>
      match jsonParseMembers fuel rest2 with
      | some (fields, '\x7d' :: rest3) => some (Json.obj fields, rest3)
      | _ => none
  | _ + 1, '-' :: rest =>
    let ds := rest.takeWhile jsonDigit
    if ds = [] then none
    else some (Json.num (-(jsonDigitsVal ds : Int)), rest.dropWhile jsonDigit)
  | _ + 1, cs =>
    let ds := cs.takeWhile jsonDigit
    if ds = [] then none
    else some (Json.num (jsonDigitsVal ds : Int), cs.dropWhile jsonDigit)

/-- Comma-separated array items; stops before the closing bracket. -/
def jsonParseItems : Nat → List Char → Option (List Json × List Char)
  | 0, _ => none
  | fuel + 1, cs =>
    match jsonParseVal fuel (cs.dropWhile jsonWs) with
    | none => none
    | some (v, rest) =>
      match rest.dropWhile jsonWs with
      | ',' :: rest2 =>
        match jsonParseItems fuel rest2 with
        | some (items, rest3) => some (v :: items, rest3)
        | none => none
      | rest2 => some ([v], rest2)

/-- Comma-separated object members; stops before the closing brace. -/
def jsonParseMembers : Nat → List Char → Option (List (String × Json) × List Char)
  | 0, _ => none
  | fuel + 1, cs =>
    match (cs.dropWhile jsonWs) with
    | '"' :: rest =>
      let key := rest.takeWhile (fun c => ¬(c = '"' || c = '\\'))
      match rest.dropWhile (fun c => ¬(c = '"' || c = '\\')) with
      | '"' :: rest2 =>
        match rest2.dropWhile jsonWs with
        | ':' :: rest3 =>
          match jsonParseVal fuel (rest3.dropWhile jsonWs) with
          | none => none
          | some (v, rest4) =>
            match rest4.dropWhile jsonWs with
            | ',' :: rest5 =>
              match jsonParseMembers fuel rest5 with
              | some (fields, rest6) => some ((String.mk key, v) :: fields, rest6)
              | none => none
            | rest5 => some ([(String.mk key, v)], rest5)
        | _ => none
      | _ => none
    | _ => none

end

/-- Models `serde_json::from_str::<Value>`: parse a complete JSON document
(a single value surrounded by optional whitespace); in particular it fails
on empty input, exactly as `serde_json` reports "EOF while parsing a value". -/
def jsonParse (s : String) : Option Json :=
  match jsonParseVal (s.data.length + 1) (s.data.dropWhile jsonWs) with
  | some (v, rest) => if rest.dropWhile jsonWs = [] then some v else none
  | none => none

/-- Models `serde_json::from_slice::<T>`: decode the bytes as UTF-8, parse
them as JSON and map the JSON value into the target type.  The typed
deserialization step of `serde`'s `Deserialize` impl for `T` is the
parameter `tDec` (returning `none` where the impl would error). -/
def from_slice {T : Type} (tDec : Json → Option T) (bytes : List UInt8) : Option T :=
  ((utf8Decode bytes).bind jsonParse).bind tDec

/-- A parsed URL, models `url::Url` for special (http/https style) schemes as
`build_url` uses it: the serialized path (always beginning with `'/'`) plus
the query component.  Fragments, user info, ports and percent-encoding are
outside what any claim exercises and are not modelled (`urlParse` rejects
inputs with fragments). -/
structure Url where
  scheme : String
  host : String
  path : List Char
  query : Option String
deriving DecidableEq, Repr

/-- Scheme validity as `url::Url::parse` checks it: one ASCII letter followed
by letters, digits, `+`, `-` or `.`. -/
def schemeOk (cs : List Char) : Bool :=
  match cs with
  | [] => false
  | c :: rest =>
    (('a' ≤ c && c ≤ 'z') || ('A' ≤ c && c ≤ 'Z')) &&
      rest.all fun d =>
        ('a' ≤ d && d ≤ 'z') || ('A' ≤ d && d ≤ 'Z') || ('0' ≤ d && d ≤ '9') ||
          d = '+' || d = '-' || d = '.'

/-- Split the input at the literal `://` separator. -/
def splitScheme : List Char → Option (List Char × List Char)
  | [] => none
  | ':' :: '/' :: '/' :: rest => some ([], rest)
  | c :: rest => (splitScheme rest).map fun p => (c :: p.1, p.2)

/-- Character ending the host component of a URL. -/
def hostEnd (c : Char) : Bool :=
  c = '/' || c = '?' || c = '#'

/-- Models `url::Url::parse` on canonical absolute URLs of the shape
`scheme://host[/path][?query]`: validates the scheme, requires a non-empty
host, canonicalizes an empty path to `/` and splits off the query.  The model
covers URLs that are already in canonical form (no percent-encoding, no dot
segments in the base, no fragment). -/
def urlParse (s : String) : Option Url :=
  match splitScheme s.data with
  | none => none
  | some (schemeChars, rest) =>
    if schemeOk schemeChars then
      let host := rest.takeWhile fun c => ¬hostEnd c
      let rest2 := rest.dropWhile fun c => ¬hostEnd c
      if host = [] then none
      else if rest2.contains '#' then none
      else
        let pathChars := rest2.takeWhile fun c => c ≠ '?'
        let queryChars := rest2.dropWhile fun c => c ≠ '?'
        some
          { scheme := String.mk schemeChars
            host := String.mk host
            path := if pathChars = [] then ['/'] else pathChars
            query :=
              match queryChars with
              | [] => none
              | _ :: qs => some (String.mk qs) }
    else none

/-- Models `url::PathSegmentsMut::pop_if_empty` on the serialized path: if
anything follows the first slash and the path ends with `/`, drop that final
slash. -/
def popIfEmpty (p : List Char) : List Char :=
  if p.drop 1 = [] then p
  else if p.getLast? = some '/' then p.dropLast else p

/-- One step of `url::PathSegmentsMut::extend` on the serialized path: `.`
and `..` segments are skipped, a `/` separator is appended only when the
current path is longer than the initial `/`, then the segment itself is
appended (the crate percent-encodes special characters inside a segment; the
model covers segments that need no encoding). -/
def extendSeg (acc : List Char) (seg : List Char) : List Char :=
  if seg = ['.'] ∨ seg = ['.', '.'] then acc
  else (if 1 < acc.length then acc ++ ['/'] else acc) ++ seg

/-- Models `url::PathSegmentsMut::extend` over a list of segments. -/
def extendPath (p : List Char) (segs : List (List Char)) : List Char :=
  segs.foldl extendSeg p

/-- Models Rust `str::split` on a single separator character. -/
def splitChar (c : Char) : List Char → List (List Char)
  | [] => [[]]
  | x :: xs =>
    let r := splitChar c xs
    if x = c then [] :: r
    else
      match r with
      | [] => [[x]]
      | h :: t => (x :: h) :: t

/-- Models `path.strip_prefix('/').unwrap_or(path)` from `build_url`. -/
def stripLeadingSlash (p : List Char) : List Char :=
  match p with
  | x :: rest => if x = '/' then rest else p
  | [] => p

/-- Render a `Url` back to a string, models `url::Url::to_string` for the
URLs this model produces. -/
def renderUrl (u : Url) : String :=
  u.scheme ++ "://" ++ u.host ++ String.mk u.path ++
    (match u.query with
     | none => ""
     | some q => "?" ++ q)

/-- The path produced by `build_url`'s segment manipulation: strip one
leading `/` from the relative path, split it on `/`, then
`pop_if_empty().extend(..)` on the base path. -/
def buildUrlPath (basePath : List Char) (rel : List Char) : List Char :=
  extendPath (popIfEmpty basePath) (splitChar '/' (stripLeadingSlash rel))

/-- Models `http::build_url` (src/http.rs): parse the base URL, remove a
leading `/` from the relative path, `pop_if_empty().extend(split('/'))` the
path segments, set the query when one is given, and render the result.  The
final conversion of the rendered string into an `http::Uri`
(`url.to_string().parse::<Uri>()`) is the identity on the canonical URLs the
model produces and is not represented separately. -/
def build_url (base : String) (path : String) (query : Option String) :
    Except ClientError String :=
  match urlParse base with
  | none => .error .UrlParseError
  | some url =>
    let newPath := buildUrlPath url.path path.data
    let newQuery :=
      match query with
      | some q => some q
      | none => url.query
    .ok (renderUrl { url with path := newPath, query := newQuery })

/-- Models `http::build_body` (src/http.rs): serialize the object with the
serializer of the `RequestType`; a serialized form of `null` or `\x7b\x7d`
is collapsed to the empty byte vector.  The serializable object is
represented by its `serde_json` value. -/
def build_body (object : Json) (ty : RequestType) : Except ClientError (List UInt8) :=
  match ty with
  | .JSON =>
    let parse_data := Json.render object
    if parse_data = "null" then .ok (utf8Encode "")
    else if parse_data = "\x7b\x7d" then .ok (utf8Encode "")
    else .ok (utf8Encode parse_data)

/-- An HTTP request, models `http::Request<Vec<u8>>` as the pipeline uses
it (URI, method and body; headers are only touched by user middleware and
carry no claim-relevant structure). -/
structure Request where
  uri : String
  method : RequestMethod
  body : List UInt8
deriving DecidableEq, Repr

/-- Models `http::build_request` (src/http.rs): build the URL and assemble
the request, with `data.unwrap_or_default()` as the body.  The
`Request::builder` step cannot fail on the canonical URIs the model
produces, so the `RequestBuildError` branch does not arise. -/
def build_request (base : String) (path : String) (method : RequestMethod)
    (query : Option String) (data : Option (List UInt8)) : Except ClientError Request :=
  (build_url base path query).map fun uri =>
    { uri := uri, method := method, body := data.getD [] }

/-- An HTTP response as the transport returns it: models
`http::Response<Bytes>` (async client) and `http::Response<Vec<u8>>`
(blocking client) — a status code and a byte body. -/
structure Response where
  code : Nat
  body : List UInt8
deriving DecidableEq, Repr

/-- The inclusive success range `200..=208` of `src/client.rs`
(`HTTP_SUCCESS_CODES`). -/
def HTTP_SUCCESS_CODES : Nat × Nat := (200, 208)

/-- Models `RangeInclusive::contains` for `HTTP_SUCCESS_CODES`. -/
def httpSuccessContains (code : Nat) : Bool :=
  decide (HTTP_SUCCESS_CODES.1 ≤ code ∧ code ≤ HTTP_SUCCESS_CODES.2)

/-- Models the provided method `Client::execute` of the async client trait
(src/client.rs): forward to `send`, then classify by status code; statuses
outside `HTTP_SUCCESS_CODES` become `ServerResponseError` carrying the code
and `String::from_utf8(body).ok()`.  The transport is the function `send`. -/
def Client.execute (send : Request → Except ClientError Response) (req : Request) :
    Except ClientError Response :=
  match send req with
  | .error e => .error e
  | .ok response =>
    if ¬httpSuccessContains response.code then
      .error (.ServerResponseError response.code (utf8Decode response.body))
    else .ok response

/-- Models the provided method `Client::execute` of the blocking client
trait (src/blocking/client.rs); its classification logic is the same text
as the async one, over `Response<Vec<u8>>` instead of `Response<Bytes>`. -/
def BlockingClient.execute (send : Request → Except ClientError Response) (req : Request) :
    Except ClientError Response :=
  match send req with
  | .error e => .error e
  | .ok response =>
    if ¬httpSuccessContains response.code then
      .error (.ServerResponseError response.code (utf8Decode response.body))
    else .ok response

/-- A client: a base URL plus the transport's `send` (the two required
methods of the `Client` trait). -/
structure Client where
  base : String
  send : Request → Except ClientError Response

/-- An endpoint, models a type implementing the `Endpoint` trait
(src/endpoint.rs).  `Response` is the phantom type parameter `R`.  The
`query` and `body` fields are the results of the trait methods of the same
names; their trait defaults are `Ok(None)`. -/
structure Endpoint (R : Type) where
  requestBodyType : RequestType := .JSON
  responseBodyType : ResponseType := .JSON
  path : String
  method : RequestMethod
  query : Except ClientError (Option String) := .ok none
  body : Except ClientError (Option (List UInt8)) := .ok none

/-- Models the default trait method `Endpoint::url`. -/
def Endpoint.url {R : Type} (e : Endpoint R) (base : String) : Except ClientError String := do
  build_url base e.path (← e.query)

/-- Models the default trait method `Endpoint::request`. -/
def Endpoint.request {R : Type} (e : Endpoint R) (base : String) :
    Except ClientError Request := do
  build_request base e.path e.method (← e.query) (← e.body)

/-- The result of executing an endpoint, models `EndpointResult<T>`
(src/endpoint.rs): the raw response plus the expected response content
type.  `T` is phantom, exactly as the Rust `PhantomData<T>` field. -/
structure EndpointResult (T : Type) where
  response : Response
  ty : ResponseType

/-- Models `EndpointResult::parse` (src/endpoint.rs):
`serde_json::from_slice` on the raw response body, with failures mapped to
`ResponseParseError` carrying `String::from_utf8(body).ok()`.  The typed
deserialization of `T` is the parameter `tDec`. -/
def EndpointResult.parse {T : Type} (er : EndpointResult T) (tDec : Json → Option T) :
    Except ClientError T :=
  match er.ty with
  | .JSON =>
    match from_slice tDec er.response.body with
    | some t => .ok t
    | none => .error (.ResponseParseError (utf8Decode er.response.body))

/-- Models `EndpointResult::raw`. -/
def EndpointResult.raw {T : Type} (er : EndpointResult T) : List UInt8 :=
  er.response.body

/-- Models `EndpointResult::wrap::<W>` (src/endpoint.rs) where
`W : Wrapper<Value = T>`: `serde_json::from_slice` on the raw response body
at type `W`, with failures mapped to `ResponseParseError` carrying
`String::from_utf8(body).ok()`.  The typed deserialization of `W` is the
parameter `wDec`; no step extracts the inner `T` out of `W`. -/
def EndpointResult.wrap {T W : Type} (er : EndpointResult T) (wDec : Json → Option W) :
    Except ClientError W :=
  match er.ty with
  | .JSON =>
    match from_slice wDec er.response.body with
    | some w => .ok w
    | none => .error (.ResponseParseError (utf8Decode er.response.body))

/-- Models the free function `exec` of src/endpoint.rs. -/
def execFn (c : Client) (req : Request) : Except ClientError Response :=
  Client.execute c.send req

/-- Models `Endpoint::exec` (the default trait method without middleware). -/
def Endpoint.exec {R : Type} (e : Endpoint R) (c : Client) :
    Except ClientError (EndpointResult R) := do
  let req ← e.request c.base
  let resp ← execFn c req
  .ok { response := resp, ty := e.responseBodyType }

/-- A middleware, models a type implementing `MiddleWare`
(src/endpoint.rs).  The Rust hooks receive `&mut` views plus a `Result<()>`
return; a hook is modelled as returning either the mutated value or the
error.  (The hooks also receive the endpoint; no claim depends on that
argument, so it is not threaded through.) -/
structure MiddleWare where
  onRequest : Request → Except ClientError Request
  onResponse : Response → Except ClientError Response

/-- An endpoint with middleware attached, models
`MutatedEndpoint<'a, E, M>`. -/
structure MutatedEndpoint (R : Type) where
  endpoint : Endpoint R
  middleware : MiddleWare

/-- Models `Endpoint::with_middleware`. -/
def Endpoint.with_middleware {R : Type} (e : Endpoint R) (m : MiddleWare) :
    MutatedEndpoint R :=
  { endpoint := e, middleware := m }

/-- `impl Endpoint for MutatedEndpoint`: `path` delegates to the wrapped
endpoint. -/
def MutatedEndpoint.path {R : Type} (me : MutatedEndpoint R) : String :=
  me.endpoint.path

/-- `impl Endpoint for MutatedEndpoint`: `method` delegates. -/
def MutatedEndpoint.method {R : Type} (me : MutatedEndpoint R) : RequestMethod :=
  me.endpoint.method

/-- `impl Endpoint for MutatedEndpoint`: `query` delegates. -/
def MutatedEndpoint.query {R : Type} (me : MutatedEndpoint R) :
    Except ClientError (Option String) :=
  me.endpoint.query

/-- `impl Endpoint for MutatedEndpoint`: `body` delegates. -/
def MutatedEndpoint.body {R : Type} (me : MutatedEndpoint R) :
    Except ClientError (Option (List UInt8)) :=
  me.endpoint.body

/-- `impl Endpoint for MutatedEndpoint`: `url` delegates. -/
def MutatedEndpoint.url {R : Type} (me : MutatedEndpoint R) (base : String) :
    Except ClientError String :=
  me.endpoint.url base

/-- `impl Endpoint for MutatedEndpoint`: `REQUEST_BODY_TYPE = E::REQUEST_BODY_TYPE`. -/
def MutatedEndpoint.requestBodyType {R : Type} (me : MutatedEndpoint R) : RequestType :=
  me.endpoint.requestBodyType

/-- `impl Endpoint for MutatedEndpoint`: `RESPONSE_BODY_TYPE = E::RESPONSE_BODY_TYPE`. -/
def MutatedEndpoint.responseBodyType {R : Type} (me : MutatedEndpoint R) : ResponseType :=
  me.endpoint.responseBodyType

/-- Models `MutatedEndpoint::request`: build the request from the delegated
artifacts, then give the middleware its one pre-send mutation pass. -/
def MutatedEndpoint.request {R : Type} (me : MutatedEndpoint R) (base : String) :
    Except ClientError Request := do
  let req ← build_request base me.path me.method (← me.query) (← me.body)
  me.middleware.onRequest req

/-- Models the free function `exec_mut` of src/endpoint.rs: execute the
request, then give the middleware its one post-receive mutation pass. -/
def exec_mut (c : Client) (req : Request) (middle : MiddleWare) :
    Except ClientError Response := do
  let resp ← Client.execute c.send req
  middle.onResponse resp

/-- Models `MutatedEndpoint::exec`. -/
def MutatedEndpoint.exec {R : Type} (me : MutatedEndpoint R) (c : Client) :
    Except ClientError (EndpointResult R) := do
  let req ← me.request c.base
  let resp ← exec_mut c req me.middleware
  .ok { response := resp, ty := me.responseBodyType }

/-- A Rust type as far as `rustify_derive::parse::is_std_option` inspects
it: a path type whose single segment is `Option`, a path type
`std::option::Option` / `core::option::Option`, or anything else. -/
inductive RustType where
  | optionPlain
  | optionStd
  | optionCore
  | other
deriving DecidableEq, Repr

/-- Models `rustify_derive::parse::is_std_option`. -/
def is_std_option (ty : RustType) : Bool :=
  match ty with
  | .optionPlain => true
  | .optionStd => true
  | .optionCore => true
  | .other => false

/-- The runtime value of an endpoint struct field, paired with how `serde`
serializes it.  A field whose declared type satisfies `is_std_option`
carries an `Option` value (`optVal`); `fields_to_struct` attaches
`#[serde(skip_serializing_if = "Option::is_none")]` to exactly those
fields, so an unset one is omitted from serialization.  Every other field
carries a plain value (`reqVal`) serialized unconditionally. -/
inductive FieldVal where
  | optVal (v : Option Json)
  | reqVal (v : Json)

/-- A named endpoint struct field with its runtime value. -/
structure SField where
  name : String
  val : FieldVal

/-- The (name, value) pairs that `serde` emits for the synthetic `__Temp`
struct produced by `rustify_derive::parse::fields_to_struct`: fields in
declaration order, with `Option`-typed fields whose value is `None` skipped
entirely (the generated `skip_serializing_if` attribute). -/
def serFields : List SField → List (String × Json)
  | [] => []
  | f :: rest =>
    match f.val with
    | .optVal none => serFields rest
    | .optVal (some v) => (f.name, v) :: serFields rest
    | .reqVal v => (f.name, v) :: serFields rest

/-- The `serde_json` value of the instantiated synthetic struct `__temp`:
the object holding exactly the non-skipped fields. -/
def fields_to_struct (fields : List SField) : Json :=
  .obj (serFields fields)

/-- The value a field contributes to a query string; `serde_urlencoded`
accepts primitive values only. -/
def urlencodedVal : Json → Option String
  | .str s => some s
  | .num n => some (toString n)
  | .bool true => some "true"
  | .bool false => some "false"
  | .null => some ""
  | _ => none

/-- Models `http::build_query` (src/http.rs) applied to the synthetic
struct that `gen_query` builds from the `Query`-tagged fields:
`serde_urlencoded::to_string`, which emits `k=v` pairs for exactly the
fields `serde` serializes (so `None`-valued optional fields are skipped)
and errors on non-primitive values.  Percent-encoding is not modelled (the
claims use values that need no encoding). -/
def build_query (fields : List SField) : Except ClientError String :=
  match (serFields fields).mapM fun p => (urlencodedVal p.2).map fun v => p.1 ++ "=" ++ v with
  | some pairs => .ok (String.intercalate "&" pairs)
  | none => .error .UrlQueryParseError

/-- The field lists that `rustify_derive::parse::field_attributes` collects
from the struct definition, keyed by `EndpointAttribute`: `raw` holds the
byte values of fields tagged `#[endpoint(raw)]`, `body` the fields tagged
`#[endpoint(body)]`, `untagged` the fields with no `endpoint` attribute.
A key is `none` exactly when no field carries that attribute (the `HashMap`
only ever receives non-empty vectors, and `Query`/`Skip` entries do not
participate in body generation). -/
structure FieldMap where
  raw : Option (List (List UInt8)) := none
  body : Option (List SField) := none
  untagged : Option (List SField) := none

/-- The body strategy selected by `rustify_derive::gen_body`: the generated
`body` method returns the raw field verbatim, or serializes a synthetic
struct of the selected fields, or is not generated at all (leaving the
trait default `Ok(None)`). -/
inductive BodyMethod where
  | raw (bytes : List UInt8)
  | serialized (fields : List SField)
  | notGenerated

/-- Models `rustify_derive::gen_body` (rustify_derive/src/lib.rs): first a
`Raw` field (rejecting more than one), else the `Body`-tagged fields, else
the untagged fields, else no body method.  The error type models the
macro's compile error; the `some []` input cannot arise from
`field_attributes` (its map only holds non-empty vectors), and is mapped to
an error as the closest rendering of the `v[0]` panic. -/
def gen_body (fields : FieldMap) : Except String BodyMethod :=
  match fields.raw with
  | some v =>
    if v.length > 1 then .error "May only mark one field as raw"
    else
      match v.head? with
      | some b => .ok (.raw b)
      | none => .error "empty raw field list"
  | none =>
    match fields.body with
    | some v => .ok (.serialized v)
    | none =>
      match fields.untagged with
      | some v => .ok (.serialized v)
      | none => .ok .notGenerated

/-- The runtime behavior of the `body` method that `gen_body`'s choice
produces: `Ok(Some(self.field.clone()))` for a raw field,
`Ok(Some(build_body(&__temp, REQUEST_BODY_TYPE)?))` for serialized fields,
and the trait default `Ok(None)` when no method is generated. -/
def bodyMethodRun (bm : BodyMethod) (reqTy : RequestType) :
    Except ClientError (Option (List UInt8)) :=
  match bm with
  | .raw bytes => .ok (some bytes)
  | .serialized fields => (build_body (fields_to_struct fields) reqTy).map some
  | .notGenerated => .ok none

/-- No two adjacent slashes: the path contains no empty path segment. -/
def noDoubleSlash (l : List Char) : Prop :=
  List.Chain' (fun a b => ¬(a = '/' ∧ b = '/')) l

/-- The base's contribution to a joined path: the popped base path, with the
root path contributing nothing. -/
def baseStem (p : List Char) : List Char :=
  if popIfEmpty p = ['/'] then [] else popIfEmpty p

/-- Join path segments with exactly one slash between consecutive
segments. -/
def joinSlash : List (List Char) → List Char
  | [] => []
  | [s] => s
  | s :: rest => s ++ '/' :: joinSlash rest

theorem exceptBind_ok {ε α β : Type} (a : α) (f : α → Except ε β) :
    (Except.ok a : Except ε α) >>= f = f a := rfl

theorem exceptBind_error {ε α β : Type} (e : ε) (f : α → Except ε β) :
    (Except.error e : Except ε α) >>= f = Except.error e := rfl

theorem exceptBind_assoc {ε α β γ : Type} (x : Except ε α)
    (f : α → Except ε β) (g : β → Except ε γ) :
    (x >>= f) >>= g = x >>= fun a => f a >>= g := by
  cases x <;> rfl

theorem exceptBindFn_ok {ε α β : Type} (a : α) (f : α → Except ε β) :
    Except.bind (Except.ok a : Except ε α) f = f a := rfl

theorem exceptBindFn_error {ε α β : Type} (e : ε) (f : α → Except ε β) :
    Except.bind (Except.error e : Except ε α) f = Except.error e := rfl

theorem serFields_append (a b : List SField) :
    serFields (a ++ b) = serFields a ++ serFields b := by
  induction a with
  | nil => rfl
  | cons f rest ih =>
    cases h : f.val with
    | optVal v => cases v <;> simp [serFields, h, ih]
    | reqVal v => simp [serFields, h, ih]

theorem string_data_append (a b : String) : (a ++ b).data = a.data ++ b.data := by
  cases a
  cases b
  rfl

theorem string_append_empty (s : String) : s ++ "" = s := by
  cases s with
  | mk l => show String.mk (l ++ []) = String.mk l
            rw [List.append_nil]

theorem splitChar_ne_nil (c : Char) (l : List Char) : splitChar c l ≠ [] := by
  induction l with
  | nil => simp [splitChar]
  | cons x xs ih =>
    simp only [splitChar]
    by_cases hx : x = c
    · simp [hx]
    · simp only [if_neg hx]
      cases h : splitChar c xs with
      | nil => simp
      | cons a t => simp

theorem mem_splitChar {c a : Char} {l : List Char} {s : List Char}
    (hs : s ∈ splitChar c l) (ha : a ∈ s) : a ∈ l := by
  induction l generalizing s with
  | nil =>
    simp [splitChar] at hs
    subst hs
    simp at ha
  | cons x xs ih =>
    simp only [splitChar] at hs
    by_cases hx : x = c
    · rw [if_pos hx] at hs
      rcases List.mem_cons.mp hs with h | h
      · subst h; simp at ha
      · exact List.mem_cons_of_mem _ (ih h ha)
    · rw [if_neg hx] at hs
      cases hsp : splitChar c xs with
      | nil => exact absurd hsp (splitChar_ne_nil c xs)
      | cons h0 t =>
        rw [hsp] at hs
        rcases List.mem_cons.mp hs with h | h
        · subst h
          rcases List.mem_cons.mp ha with h | h
          · exact h ▸ List.mem_cons_self _ _
          · exact List.mem_cons_of_mem _ (ih (hsp ▸ List.mem_cons_self _ _) h)
        · exact List.mem_cons_of_mem _ (ih (hsp ▸ List.mem_cons_of_mem _ h) ha)

theorem mem_stripLeadingSlash {a : Char} {l : List Char}
    (h : a ∈ stripLeadingSlash l) : a ∈ l := by
  cases l with
  | nil => exact h
  | cons x xs =>
    simp only [stripLeadingSlash] at h
    by_cases hx : x = '/'
    · rw [if_pos hx] at h
      exact List.mem_cons_of_mem _ h
    · rwa [if_neg hx] at h

theorem popIfEmpty_eq_or (p : List Char) :
    popIfEmpty p = p ∨ popIfEmpty p = p.dropLast := by
  unfold popIfEmpty
  split
  · exact Or.inl rfl
  · split
    · exact Or.inr rfl
    · exact Or.inl rfl

theorem mem_popIfEmpty {a : Char} {p : List Char} (h : a ∈ popIfEmpty p) : a ∈ p := by
  rcases popIfEmpty_eq_or p with he | he
  · rwa [he] at h
  · rw [he] at h
    exact (List.dropLast_sublist p).subset h

theorem mem_extendPath {a : Char} (p : List Char) (segs : List (List Char))
    (h : a ∈ extendPath p segs) : a ∈ p ∨ a = '/' ∨ ∃ s ∈ segs, a ∈ s := by
  induction segs generalizing p with
  | nil => exact Or.inl h
  | cons s rest ih =>
    have h2 : a ∈ extendPath (extendSeg p s) rest := h
    rcases ih (extendSeg p s) h2 with h3 | h3 | ⟨t, ht, hat⟩
    · unfold extendSeg at h3
      split at h3
      · exact Or.inl h3
      · rcases List.mem_append.mp h3 with h4 | h4
        · split at h4
          · rcases List.mem_append.mp h4 with h5 | h5
            · exact Or.inl h5
            · simp at h5
              exact Or.inr (Or.inl h5)
          · exact Or.inl h4
        · exact Or.inr (Or.inr ⟨s, List.mem_cons_self _ _, h4⟩)
    · exact Or.inr (Or.inl h3)
    · exact Or.inr (Or.inr ⟨t, List.mem_cons_of_mem _ ht, hat⟩)

theorem extendSeg_eq (p s : List Char) (hd : ¬(s = ['.'] ∨ s = ['.', '.']))
    (hp : 1 < p.length) : extendSeg p s = p ++ '/' :: s := by
  unfold extendSeg
  rw [if_neg hd, if_pos hp, List.append_assoc]
  rfl

theorem extendPath_append (p : List Char) (segs : List (List Char)) (hp : 1 < p.length)
    (hd : ∀ s ∈ segs, ¬(s = ['.'] ∨ s = ['.', '.'])) :
    extendPath p segs = p ++ (segs.map fun s => '/' :: s).flatten := by
  induction segs generalizing p with
  | nil => simp [extendPath]
  | cons s rest ih =>
    have hstep : extendSeg p s = p ++ '/' :: s :=
      extendSeg_eq p s (hd s (List.mem_cons_self _ _)) hp
    have hlen : 1 < (p ++ '/' :: s).length := by
      rw [List.length_append]
      omega
    have h2 : extendPath p (s :: rest) = extendPath (p ++ '/' :: s) rest := by
      simp [extendPath, hstep]
    rw [h2, ih (p ++ '/' :: s) hlen (fun t ht => hd t (List.mem_cons_of_mem _ ht))]
    simp

theorem flatten_slash (segs : List (List Char)) (h : segs ≠ []) :
    (segs.map fun s => '/' :: s).flatten = '/' :: joinSlash segs := by
  induction segs with
  | nil => exact absurd rfl h
  | cons s rest ih =>
    cases rest with
    | nil => simp [joinSlash]
    | cons s2 r2 =>
      have h2 := ih (by simp)
      simp only [List.map_cons, List.flatten_cons] at h2 ⊢
      rw [h2]
      show '/' :: (s ++ '/' :: joinSlash (s2 :: r2)) = '/' :: joinSlash (s :: s2 :: r2)
      rfl

theorem extendPath_root (s : List Char) (rest : List (List Char)) (hs : s ≠ [])
    (hds : ¬(s = ['.'] ∨ s = ['.', '.']))
    (hd : ∀ t ∈ rest, ¬(t = ['.'] ∨ t = ['.', '.'])) :
    extendPath ['/'] (s :: rest) = '/' :: joinSlash (s :: rest) := by
  have hstep : extendSeg ['/'] s = '/' :: s := by
    unfold extendSeg
    rw [if_neg hds]
    simp
  have h1 : extendPath ['/'] (s :: rest) = extendPath ('/' :: s) rest := by
    simp [extendPath, hstep]
  cases rest with
  | nil =>
    rw [h1]
    rfl
  | cons s2 r2 =>
    have hlen : 1 < ('/' :: s).length := by
      cases s with
      | nil => exact absurd rfl hs
      | cons a t => simp
    rw [h1, extendPath_append ('/' :: s) (s2 :: r2) hlen hd,
      flatten_slash (s2 :: r2) (by simp)]
    show '/' :: (s ++ '/' :: joinSlash (s2 :: r2)) = '/' :: joinSlash (s :: s2 :: r2)
    rfl

theorem popIfEmpty_cases (p : List Char) (hh : p.head? = some '/') :
    popIfEmpty p = ['/'] ∨ 1 < (popIfEmpty p).length := by
  cases p with
  | nil => simp at hh
  | cons x t =>
    have hx : x = '/' := by simpa using hh
    subst hx
    unfold popIfEmpty
    by_cases ht : ('/' :: t).drop 1 = []
    · rw [if_pos ht]
      simp at ht
      subst ht
      exact Or.inl rfl
    · rw [if_neg ht]
      simp at ht
      by_cases hl : ('/' :: t).getLast? = some '/'
      · rw [if_pos hl]
        rcases t with _ | ⟨c, t2⟩
        · exact absurd rfl ht
        · rcases t2 with _ | ⟨c2, t3⟩
          · have hc : c = '/' := by simpa using hl
            subst hc
            exact Or.inl rfl
          · right
            rw [List.length_dropLast]
            simp
      · rw [if_neg hl]
        right
        cases t with
        | nil => exact absurd rfl ht
        | cons c t2 => simp

theorem chain'_of_no_slash (l : List Char) (h : '/' ∉ l) : noDoubleSlash l := by
  induction l with
  | nil => exact List.chain'_nil
  | cons a t ih =>
    cases t with
    | nil => simp [noDoubleSlash]
    | cons b t2 =>
      rw [noDoubleSlash, List.chain'_cons]
      refine ⟨fun hc => h (hc.1 ▸ List.mem_cons_self _ _), ?_⟩
      exact ih fun hm => h (List.mem_cons_of_mem _ hm)

theorem joinSlash_ne_nil (segs : List (List Char)) (h0 : segs ≠ [])
    (hne : ∀ s ∈ segs, s ≠ []) : joinSlash segs ≠ [] := by
  cases segs with
  | nil => exact absurd rfl h0
  | cons s rest =>
    cases rest with
    | nil => exact hne s (List.mem_cons_self _ _)
    | cons s2 r2 =>
      show s ++ '/' :: joinSlash (s2 :: r2) ≠ []
      simp

theorem joinSlash_props (segs : List (List Char))
    (hne : ∀ s ∈ segs, s ≠ [] ∧ '/' ∉ s) :
    noDoubleSlash (joinSlash segs) ∧
    (∀ c, (joinSlash segs).head? = some c → c ≠ '/') ∧
    (∀ c, (joinSlash segs).getLast? = some c → c ≠ '/') := by
  induction segs with
  | nil =>
    refine ⟨List.chain'_nil, ?_, ?_⟩ <;> intro c hc <;> simp [joinSlash] at hc
  | cons s rest ih =>
    have hs := hne s (List.mem_cons_self _ _)
    cases rest with
    | nil =>
      refine ⟨chain'_of_no_slash s hs.2, ?_, ?_⟩
      · intro c hc heq
        subst heq
        exact hs.2 (List.mem_of_mem_head? hc)
      · intro c hc heq
        subst heq
        exact hs.2 (List.mem_of_mem_getLast? hc)
    | cons s2 r2 =>
      have ih2 := ih fun t ht => hne t (List.mem_cons_of_mem _ ht)
      have hJne : joinSlash (s2 :: r2) ≠ [] :=
        joinSlash_ne_nil (s2 :: r2) (by simp)
          (fun t ht => (hne t (List.mem_cons_of_mem _ ht)).1)
      have hshow : joinSlash (s :: s2 :: r2) = s ++ '/' :: joinSlash (s2 :: r2) := rfl
      refine ⟨?_, ?_, ?_⟩
      · rw [hshow, noDoubleSlash, List.chain'_append]
        refine ⟨chain'_of_no_slash s hs.2, ?_, ?_⟩
        · rw [List.chain'_cons']
          refine ⟨?_, ih2.1⟩
          intro b hb hc
          exact ih2.2.1 b hb hc.2
        · intro x hx y hy hc
          exact hs.2 (hc.1 ▸ List.mem_of_mem_getLast? hx)
      · rw [hshow]
        intro c hc heq
        subst heq
        cases s with
        | nil => exact hs.1 rfl
        | cons a t =>
          simp at hc
          exact hs.2 (hc ▸ List.mem_cons_self _ _)
      · rw [hshow]
        intro c hc
        rw [List.getLast?_append_cons] at hc
        cases hJ : joinSlash (s2 :: r2) with
        | nil => exact absurd hJ hJne
        | cons j0 jt =>
          rw [hJ, List.getLast?_cons_cons] at hc
          exact ih2.2.2 c (hJ ▸ hc)

theorem popIfEmpty_chain (p : List Char) (h : noDoubleSlash p) :
    noDoubleSlash (popIfEmpty p) := by
  rcases popIfEmpty_eq_or p with he | he
  · rwa [he]
  · rw [he]
    cases hp : p with
    | nil => exact List.chain'_nil
    | cons x t =>
      have hne : p ≠ [] := by rw [hp]; simp
      have hdec := List.dropLast_append_getLast hne
      rw [← hdec, noDoubleSlash, List.chain'_append] at h
      rw [← hp]
      exact h.1

theorem popIfEmpty_getLast (p : List Char) (hh : p.head? = some '/')
    (hch : noDoubleSlash p) (hne : popIfEmpty p ≠ ['/']) :
    ∀ c, (popIfEmpty p).getLast? = some c → c ≠ '/' := by
  intro c hc heq
  subst heq
  cases p with
  | nil => simp at hh
  | cons x t =>
    have hx : x = '/' := by simpa using hh
    subst hx
    unfold popIfEmpty at hne hc
    by_cases ht : ('/' :: t).drop 1 = []
    · rw [if_pos ht] at hne
      simp at ht
      subst ht
      exact hne rfl
    · rw [if_neg ht] at hne hc
      by_cases hl : ('/' :: t).getLast? = some '/'
      · rw [if_pos hl] at hne hc
        have hsplit : ('/' :: t).dropLast ++ ['/'] = '/' :: t :=
          List.dropLast_append_getLast? '/' hl
        have hch2 := hch
        rw [noDoubleSlash, ← hsplit, List.chain'_append] at hch2
        exact hch2.2.2 '/' hc '/' rfl ⟨rfl, rfl⟩
      · rw [if_neg hl] at hc
        exact hl hc

theorem head?_dropWhile_prop {p : Char → Bool} :
    ∀ (l : List Char) (a : Char), (l.dropWhile p).head? = some a → p a = false := by
  intro l
  induction l with
  | nil => intro a h; simp [List.dropWhile] at h
  | cons x xs ih =>
    intro a h
    by_cases hp : p x
    · rw [List.dropWhile_cons_of_pos hp] at h
      exact ih a h
    · rw [List.dropWhile_cons_of_neg hp] at h
      simp at h
      subst h
      simpa using hp

theorem urlParse_inv {base : String} {u : Url} (h : urlParse base = some u) :
    u.path.head? = some '/' ∧
    (∀ c ∈ u.scheme.data, c ≠ '?') ∧
    (∀ c ∈ u.host.data, c ≠ '?') ∧
    (∀ c ∈ u.path, c ≠ '?') := by
  unfold urlParse at h
  cases hss : splitScheme base.data with
  | none =>
    rw [hss] at h
    exact absurd h (by simp)
  | some pr =>
    obtain ⟨sch, rest⟩ := pr
    rw [hss] at h
    dsimp only at h
    split at h
    case isFalse => exact absurd h (by simp)
    case isTrue hok =>
      split at h
      case isTrue => exact absurd h (by simp)
      case isFalse hhost =>
        split at h
        case isTrue => exact absurd h (by simp)
        case isFalse hfrag =>
          have hu := (Option.some.inj h).symm
          subst hu
          refine ⟨?_, ?_, ?_, ?_⟩
          · dsimp only
            split
            case isTrue => rfl
            case isFalse hpc =>
              cases hr2 : List.dropWhile (fun c => ¬hostEnd c) rest with
              | nil =>
                rw [hr2] at hpc
                exact absurd rfl hpc
              | cons y ys =>
                rw [hr2] at hpc
                by_cases hy : y ≠ '?'
                · have hhe := head?_dropWhile_prop rest y (by rw [hr2]; rfl)
                  have hy2 : hostEnd y = true := by simpa using hhe
                  have hyf : y ≠ '#' := by
                    intro hc
                    apply hfrag
                    rw [hr2, hc]
                    simp
                  have hys : y = '/' := by
                    have h3 : (y = '/' ∨ y = '?') ∨ y = '#' := by simpa [hostEnd] using hy2
                    tauto
                  subst hys
                  rw [List.takeWhile_cons_of_pos (by simp)]
                  rfl
                · rw [Decidable.not_not] at hy
                  subst hy
                  rw [List.takeWhile_cons_of_neg (by simp)] at hpc
                  exact absurd rfl hpc
          · intro c hc hceq
            subst hceq
            dsimp only at hc
            cases hsch : sch with
            | nil =>
              rw [hsch] at hok
              exact absurd hok (by simp [schemeOk])
            | cons c0 rest0 =>
              rw [hsch] at hok hc
              simp only [schemeOk, Bool.and_eq_true] at hok
              rcases List.mem_cons.mp hc with hc1 | hc1
              · rw [← hc1] at hok
                simp at hok
              · have := (List.all_eq_true.mp hok.2) '?' hc1
                simp at this
          · intro c hc hceq
            subst hceq
            dsimp only at hc
            have := List.mem_takeWhile_imp hc
            simp [hostEnd] at this
          · intro c hc hceq
            subst hceq
            dsimp only at hc
            split at hc
            case isTrue => simp at hc
            case isFalse =>
              have := List.mem_takeWhile_imp hc
              simp at this

theorem buildUrlPath_eq (basePath rel : List Char) (segs : List (List Char))
    (hh : basePath.head? = some '/')
    (hsegs : splitChar '/' (stripLeadingSlash rel) = segs)
    (hne : ∀ s ∈ segs, s ≠ [] ∧ '/' ∉ s ∧ s ≠ ['.'] ∧ s ≠ ['.', '.']) :
    buildUrlPath basePath rel = baseStem basePath ++ '/' :: joinSlash segs := by
  have hne0 : segs ≠ [] := by
    rw [← hsegs]
    exact splitChar_ne_nil _ _
  obtain ⟨s, rest, hsr⟩ : ∃ s rest, segs = s :: rest := by
    cases segs with
    | nil => exact absurd rfl hne0
    | cons a b => exact ⟨a, b, rfl⟩
  have hdots : ∀ t ∈ segs, ¬(t = ['.'] ∨ t = ['.', '.']) := by
    intro t ht hc
    rcases hc with hc | hc
    · exact (hne t ht).2.2.1 hc
    · exact (hne t ht).2.2.2 hc
  rw [buildUrlPath, hsegs]
  rcases popIfEmpty_cases basePath hh with hpop | hpop
  · rw [baseStem, if_pos hpop, hpop, hsr]
    rw [extendPath_root s rest (hne s (hsr ▸ List.mem_cons_self _ _)).1
      (hdots s (hsr ▸ List.mem_cons_self _ _))
      (fun t ht => hdots t (hsr ▸ List.mem_cons_of_mem _ ht))]
    rfl
  · have hnr : popIfEmpty basePath ≠ ['/'] := by
      intro hc
      rw [hc] at hpop
      simp at hpop
    rw [baseStem, if_neg hnr, extendPath_append _ _ hpop hdots, flatten_slash _ hne0]

theorem buildUrlPath_chain (basePath : List Char) (segs : List (List Char))
    (hh : basePath.head? = some '/') (hch : noDoubleSlash basePath)
    (hne : ∀ s ∈ segs, s ≠ [] ∧ '/' ∉ s) :
    noDoubleSlash (baseStem basePath ++ '/' :: joinSlash segs) := by
  have hJ := joinSlash_props segs hne
  have hchJ : noDoubleSlash ('/' :: joinSlash segs) := by
    rw [noDoubleSlash, List.chain'_cons']
    refine ⟨?_, hJ.1⟩
    intro b hb hc
    exact hJ.2.1 b hb hc.2
  by_cases hpop : popIfEmpty basePath = ['/']
  · rw [baseStem, if_pos hpop, List.nil_append]
    exact hchJ
  · rw [baseStem, if_neg hpop, noDoubleSlash, List.chain'_append]
    refine ⟨popIfEmpty_chain basePath hch, hchJ, ?_⟩
    intro x hx y hy hc
    rw [show ('/' :: joinSlash segs).head? = some '/' from rfl] at hy
    exact popIfEmpty_getLast basePath hh hch hpop x hx hc.1

/-- Claim C2: for every parseable base URL (canonical, query-free base) and
every relative path made of ordinary segments, `build_url` joins the base
path and the relative path with exactly one slash — the result is the
popped base path, one separator, and the slash-joined segments, with no
empty path segment — in all four trailing-slash x leading-slash
combinations, as the two concrete instances spell out. -/
theorem claim_C2 :
    (∀ (base rel : String) (u : Url) (segs : List (List Char)),
      urlParse base = some u →
      u.query = none →
      noDoubleSlash u.path →
      splitChar '/' (stripLeadingSlash rel.data) = segs →
      (∀ s ∈ segs, s ≠ [] ∧ '/' ∉ s ∧ s ≠ ['.'] ∧ s ≠ ['.', '.']) →
      build_url base rel none =
        .ok (u.scheme ++ "://" ++ u.host ++
          String.mk (baseStem u.path ++ '/' :: joinSlash segs)) ∧
      noDoubleSlash (baseStem u.path ++ '/' :: joinSlash segs)) ∧
    build_url "https://h/base/" "/foobar" none = .ok "https://h/base/foobar" ∧
    build_url "https://h" "foobar" none = .ok "https://h/foobar" := by
  refine ⟨?_, rfl, rfl⟩
  intro base rel u segs hparse hquery hch hsegs hne
  have hhead : u.path.head? = some '/' := (urlParse_inv hparse).1
  have hpath := buildUrlPath_eq u.path rel.data segs hhead hsegs hne
  refine ⟨?_, buildUrlPath_chain u.path segs hhead hch
    (fun s hs => ⟨(hne s hs).1, (hne s hs).2.1⟩)⟩
  have hopen : build_url base rel none =
      .ok (renderUrl { u with path := buildUrlPath u.path rel.data, query := u.query }) := by
    unfold build_url
    rw [hparse]
  rw [hopen, hpath]
  unfold renderUrl
  rw [hquery]
  rw [string_append_empty]

/-- Witness for C2 at base `https://h/x` and relative path `a/b`. -/
theorem claim_C2_witness :
    build_url "https://h/x" "a/b" none = .ok "https://h/x/a/b" := by
  have h :=
    (claim_C2.1 "https://h/x" "a/b" ⟨"https", "h", "/x".data, none⟩ [['a'], ['b']]
        rfl rfl (by simp [noDoubleSlash, List.chain'_cons]) rfl (by decide)).1
  exact h.trans (congrArg Except.ok (by decide))

/-- Counterexample to claim C6: when the base URL itself carries a query,
`build_url` with an absent query keeps it (the result has a `?` suffix),
and a present query string REPLACES the base's query instead of being
appended to it. -/
theorem claim_C6_counterexample :
    build_url "https://h/p?x=1" "y" none = .ok "https://h/p/y?x=1" ∧
    ('?' ∈ ("https://h/p/y?x=1" : String).data) ∧
    build_url "https://h/p?x=1" "y" (some "a=b") = .ok "https://h/p/y?a=b" ∧
    build_url "https://h/p?x=1" "y" (some "a=b") ≠ .ok "https://h/p/y?x=1&a=b" := by
  refine ⟨rfl, by decide, rfl, ?_⟩
  intro hc
  exact absurd (Except.ok.inj hc) (by decide)

/-- Claim C6 as amended: with an absent query, `build_url` leaves the query
component exactly as the base's — the result renders the base's own query
whatever it is, so in particular no `?` appears when the base URL carries
none (and the path introduces none) — and with a present query string it
sets the URL's query to exactly that string, replacing any query the base
may have carried. -/
theorem claim_C6_amended :
    (∀ (base rel : String) (u : Url),
      urlParse base = some u →
      build_url base rel none =
        .ok (u.scheme ++ "://" ++ u.host ++ String.mk (buildUrlPath u.path rel.data) ++
          (match u.query with
           | none => ""
           | some bq => "?" ++ bq))) ∧
    (∀ (base rel : String) (u : Url),
      urlParse base = some u → u.query = none → (∀ c ∈ rel.data, c ≠ '?') →
      ∃ s, build_url base rel none = .ok s ∧ '?' ∉ s.data) ∧
    (∀ (base rel : String) (u : Url) (q : String),
      urlParse base = some u →
      build_url base rel (some q) =
        .ok (u.scheme ++ "://" ++ u.host ++ String.mk (buildUrlPath u.path rel.data) ++
          ("?" ++ q))) := by
  refine ⟨?_, ?_, ?_⟩
  · intro base rel u hparse
    unfold build_url
    rw [hparse]
    rfl
  · intro base rel u hparse hquery hrel
    obtain ⟨hhead, hsch, hhost, hpathq⟩ := urlParse_inv hparse
    refine ⟨u.scheme ++ "://" ++ u.host ++ String.mk (buildUrlPath u.path rel.data), ?_, ?_⟩
    · have hopen : build_url base rel none =
          .ok (renderUrl { u with path := buildUrlPath u.path rel.data, query := u.query }) := by
        unfold build_url
        rw [hparse]
      rw [hopen]
      unfold renderUrl
      rw [hquery]
      rw [string_append_empty]
    · intro hmem
      rw [string_data_append, string_data_append, string_data_append] at hmem
      rcases List.mem_append.mp hmem with hmem | hmem
      · rcases List.mem_append.mp hmem with hmem | hmem
        · rcases List.mem_append.mp hmem with hmem | hmem
          · exact hsch '?' hmem rfl
          · simp [show ("://" : String).data = [':', '/', '/'] from rfl] at hmem
        · exact hhost '?' hmem rfl
      · have hmem2 : '?' ∈ buildUrlPath u.path rel.data := hmem
        rcases mem_extendPath _ _ hmem2 with h3 | h3 | ⟨t, ht, hat⟩
        · exact hpathq '?' (mem_popIfEmpty h3) rfl
        · exact absurd h3 (by decide)
        · exact hrel '?' (mem_stripLeadingSlash (mem_splitChar ht hat)) rfl
  · intro base rel u q hparse
    unfold build_url
    rw [hparse]
    rfl

/-- Witness for the amended C6: a base that carries the query `x=1` keeps
exactly that query under an absent query argument, and a query-free base
with a plain relative path yields a URL without any question mark. -/
theorem claim_C6_amended_witness :
    build_url "https://h/p?x=1" "z" none = .ok "https://h/p/z?x=1" ∧
    ∃ s, build_url "https://h" "a" none = .ok s ∧ '?' ∉ s.data := by
  constructor
  · have h :=
      claim_C6_amended.1 "https://h/p?x=1" "z" ⟨"https", "h", "/p".data, some "x=1"⟩ rfl
    exact h.trans (congrArg Except.ok (by decide))
  · exact claim_C6_amended.2.1 "https://h" "a" ⟨"https", "h", ['/'], none⟩ rfl rfl (by decide)

/-- Claim C1: a transport response is accepted by `Client::execute` exactly
when its status code lies in `[200, 208]`; any other status becomes
`ServerResponseError` with the code and the UTF-8 decoded body, and the
blocking `execute` classifies identically. -/
theorem claim_C1 (send : Request → Except ClientError Response) (req : Request)
    (resp : Response) (hsend : send req = .ok resp) :
    (Client.execute send req = BlockingClient.execute send req) ∧
    ((∃ r, Client.execute send req = .ok r) ↔ (200 ≤ resp.code ∧ resp.code ≤ 208)) ∧
    ((200 ≤ resp.code ∧ resp.code ≤ 208) → Client.execute send req = .ok resp) ∧
    (¬(200 ≤ resp.code ∧ resp.code ≤ 208) →
      Client.execute send req =
        .error (.ServerResponseError resp.code (utf8Decode resp.body)) ∧
      ∀ s, utf8Decode resp.body = some s →
        Client.execute send req = .error (.ServerResponseError resp.code (some s))) := by
  refine ⟨rfl, ?_, ?_, ?_⟩ <;>
    by_cases h : 200 ≤ resp.code ∧ resp.code ≤ 208 <;>
      simp_all [Client.execute, httpSuccessContains, HTTP_SUCCESS_CODES]

/-- Witness for C1 at status 209 with body "oops": execution fails with
`ServerResponseError(209, Some("oops"))`, as 209 lies outside the success
range. -/
theorem claim_C1_witness :
    Client.execute (fun _ => .ok ⟨209, utf8Encode "oops"⟩) ⟨"https://h/x", .GET, []⟩ =
      .error (.ServerResponseError 209 (some "oops")) := by
  have h :=
    (claim_C1 (fun _ => .ok ⟨209, utf8Encode "oops"⟩) ⟨"https://h/x", .GET, []⟩
        ⟨209, utf8Encode "oops"⟩ rfl).2.2.2 (by decide)
  exact h.2 "oops" rfl

/-- Claim C3: `gen_body` resolves the request body by first-match-wins
precedence: a `Raw` field is returned verbatim even when `Body`-tagged
fields are present; else the `Body`-tagged fields are serialized; else the
untagged fields are; else no body method is generated and the trait default
produces no body. -/
theorem claim_C3 (fm : FieldMap) (b : List UInt8)
    (bodyFields untaggedFields : List SField) (ty : RequestType) :
    (fm.raw = some [b] →
      gen_body fm = .ok (.raw b) ∧ bodyMethodRun (.raw b) ty = .ok (some b)) ∧
    (fm.raw = none → fm.body = some bodyFields →
      gen_body fm = .ok (.serialized bodyFields) ∧
      bodyMethodRun (.serialized bodyFields) ty =
        (build_body (fields_to_struct bodyFields) ty).map some) ∧
    (fm.raw = none → fm.body = none → fm.untagged = some untaggedFields →
      gen_body fm = .ok (.serialized untaggedFields)) ∧
    (fm.raw = none → fm.body = none → fm.untagged = none →
      gen_body fm = .ok .notGenerated ∧ bodyMethodRun .notGenerated ty = .ok none) := by
  refine ⟨fun h1 => ?_, fun h1 h2 => ?_, fun h1 h2 h3 => ?_, fun h1 h2 h3 => ?_⟩ <;>
    simp [gen_body, bodyMethodRun, h1, *]

/-- Witness for C3: with one raw field holding byte `0x61` and a
`Body`-tagged field also present, the body is exactly the raw byte,
untouched by serialization. -/
theorem claim_C3_witness :
    gen_body
        { raw := some [[0x61]],
          body := some [{ name := "x", val := .reqVal .null }] } =
      .ok (.raw [0x61]) ∧
    bodyMethodRun (.raw [0x61]) .JSON = .ok (some [0x61]) :=
  (claim_C3
      { raw := some [[0x61]], body := some [{ name := "x", val := .reqVal .null }] }
      [0x61] [] [] .JSON).1 rfl

/-- Counterexample to claim C4: `parse` on a zero-length body does NOT
return an absent/"no content" result — it returns a `ResponseParseError`
(JSON deserialization of empty input fails with EOF), carrying the decoded
empty content; a malformed non-empty body yields the same error kind. -/
theorem claim_C4_counterexample :
    EndpointResult.parse (T := Json) ⟨⟨200, []⟩, .JSON⟩ some =
      .error (.ResponseParseError (some "")) ∧
    EndpointResult.parse (T := Json) ⟨⟨200, utf8Encode "not json"⟩, .JSON⟩ some =
      .error (.ResponseParseError (some "not json")) ∧
    EndpointResult.wrap (T := Json) (W := Json) ⟨⟨200, []⟩, .JSON⟩ some =
      .error (.ResponseParseError (some "")) :=
  ⟨rfl, rfl, rfl⟩

/-- Claim C4 as amended: `parse` (and `wrap`) on a zero-length body returns
`ResponseParseError` with content `Some("")`, exactly the error kind a
non-empty undeserializable body produces (whose error carries that body's
decoded content); no absent/"no content" outcome exists. -/
theorem claim_C4_amended {T W : Type} (tDec : Json → Option T) (wDec : Json → Option W)
    (code : Nat) (body : List UInt8) :
    (body = [] →
      EndpointResult.parse (T := T) ⟨⟨code, body⟩, .JSON⟩ tDec =
        .error (.ResponseParseError (some "")) ∧
      EndpointResult.wrap (T := T) ⟨⟨code, body⟩, .JSON⟩ wDec =
        .error (.ResponseParseError (some ""))) ∧
    (from_slice tDec body = none →
      EndpointResult.parse (T := T) ⟨⟨code, body⟩, .JSON⟩ tDec =
        .error (.ResponseParseError (utf8Decode body))) := by
  constructor
  · rintro rfl
    exact ⟨rfl, rfl⟩
  · intro h
    simp [EndpointResult.parse, h]

/-- Witness for the amended C4: parsing the malformed body "not json"
fails with `ResponseParseError(Some("not json"))`. -/
theorem claim_C4_amended_witness :
    EndpointResult.parse (T := Json) ⟨⟨200, utf8Encode "not json"⟩, .JSON⟩ some =
      .error (.ResponseParseError (some "not json")) := by
  have h :=
    (claim_C4_amended (T := Json) (W := Json) some some 200 (utf8Encode "not json")).2 rfl
  exact h.trans (by rfl)

/-- Claim C5: a body object whose serialized JSON text is `null` or an
empty object collapses to an empty byte body: the generated body method
yields zero bytes, and the literal `null` / empty-object bytes are never
produced as the request body. -/
theorem claim_C5 (object : Json) (fields : List SField)
    (h : Json.render object = "null" ∨ Json.render object = "\x7b\x7d") :
    build_body object .JSON = .ok [] ∧
    (fields_to_struct fields = object →
      bodyMethodRun (.serialized fields) .JSON = .ok (some [])) ∧
    build_body object .JSON ≠ .ok (utf8Encode "\x7b\x7d") ∧
    build_body object .JSON ≠ .ok (utf8Encode "null") := by
  have hb : build_body object .JSON = .ok [] := by
    rcases h with h | h <;> simp [build_body, h, utf8Encode]
  refine ⟨hb, fun hf => ?_, ?_, ?_⟩
  · simp [bodyMethodRun, hf, hb, Except.map]
  · rw [hb]; intro hc; exact absurd (Except.ok.inj hc) (by decide)
  · rw [hb]; intro hc; exact absurd (Except.ok.inj hc) (by decide)

/-- Witness for C5: the empty synthetic struct serializes to an empty
object and the body collapses to zero bytes. -/
theorem claim_C5_witness :
    build_body (Json.obj []) .JSON = .ok [] ∧
    bodyMethodRun (.serialized []) .JSON = .ok (some []) := by
  have h := claim_C5 (Json.obj []) [] (Or.inr rfl)
  exact ⟨h.1, h.2.1 rfl⟩

/-- Claim C7: an optional (`is_std_option`) field whose runtime value is
unset is omitted from the serialized fields entirely — body object and
query string are identical to those without the field — while the same
field set to a value appears in the output. -/
theorem claim_C7 (pre post : List SField) (name : String) (v : Json) :
    serFields (pre ++ { name := name, val := .optVal none } :: post) =
      serFields (pre ++ post) ∧
    serFields (pre ++ { name := name, val := .optVal (some v) } :: post) =
      serFields pre ++ (name, v) :: serFields post ∧
    fields_to_struct (pre ++ { name := name, val := .optVal none } :: post) =
      fields_to_struct (pre ++ post) ∧
    build_query (pre ++ { name := name, val := .optVal none } :: post) =
      build_query (pre ++ post) ∧
    (name, v) ∈ serFields (pre ++ { name := name, val := .optVal (some v) } :: post) := by
  have h1 : serFields (pre ++ { name := name, val := .optVal none } :: post) =
      serFields (pre ++ post) := by
    rw [serFields_append, serFields_append]
    simp [serFields]
  have h2 : serFields (pre ++ { name := name, val := .optVal (some v) } :: post) =
      serFields pre ++ (name, v) :: serFields post := by
    rw [serFields_append]
    simp [serFields]
  refine ⟨h1, h2, ?_, ?_, ?_⟩
  · simp [fields_to_struct, h1]
  · simp [build_query, h1]
  · rw [h2]
    exact List.mem_append_right _ (List.mem_cons_self _ _)

/-- Claim C8: `wrap::<W>` deserializes exactly the same raw response body
bytes as `parse`, with the identical deserialization logic applied at type
`W`, and performs no further step extracting the inner value out of `W`:
it is the same function as `parse` instantiated at `W`. -/
theorem claim_C8 {T W : Type} (er : EndpointResult T) (wDec : Json → Option W) :
    er.wrap wDec =
      EndpointResult.parse (T := W) ⟨er.response, er.ty⟩ wDec :=
  rfl

/-- Claim C9: a failing pre-send middleware hook aborts `exec` with that
error before the transport is ever invoked (the outcome is the same for
every transport), and a failing post-receive hook aborts `exec` with its
error after the transport call. -/
theorem claim_C9 {R : Type} (e : Endpoint R) (m : MiddleWare) (base : String)
    (q : Option String) (b : Option (List UInt8)) (req0 : Request) (err : ClientError)
    (hq : e.query = .ok q) (hb : e.body = .ok b)
    (hr : build_request base e.path e.method q b = .ok req0) :
    (m.onRequest req0 = .error err →
      ∀ send : Request → Except ClientError Response,
        (e.with_middleware m).exec { base := base, send := send } = .error err) ∧
    (∀ (send : Request → Except ClientError Response) (req1 : Request) (resp : Response),
      m.onRequest req0 = .ok req1 →
      Client.execute send req1 = .ok resp →
      m.onResponse resp = .error err →
      (e.with_middleware m).exec { base := base, send := send } = .error err) := by
  constructor
  · intro hm send
    simp [MutatedEndpoint.exec, MutatedEndpoint.request, MutatedEndpoint.path,
      MutatedEndpoint.method, MutatedEndpoint.query, MutatedEndpoint.body,
      Endpoint.with_middleware, hq, hb, hr, hm,
      exceptBind_ok, exceptBind_error, exceptBind_assoc]
  · intro send req1 resp hm hex hresp
    simp [MutatedEndpoint.exec, MutatedEndpoint.request, MutatedEndpoint.path,
      MutatedEndpoint.method, MutatedEndpoint.query, MutatedEndpoint.body,
      Endpoint.with_middleware, exec_mut, hq, hb, hr, hm, hex, hresp,
      exceptBind_ok, exceptBind_error, exceptBind_assoc]

/-- Witness for C9: a middleware whose request hook fails with
`GenericError` aborts execution with that error, under a transport that
would have succeeded. -/
theorem claim_C9_witness :
    (Endpoint.with_middleware (R := Json)
        { path := "p", method := .GET }
        { onRequest := fun _ => .error .GenericError,
          onResponse := fun r => .ok r }).exec
      { base := "https://h", send := fun _ => .ok ⟨200, []⟩ } = .error .GenericError := by
  have h :=
    (claim_C9 (R := Json) { path := "p", method := .GET }
        { onRequest := fun _ => .error .GenericError, onResponse := fun r => .ok r }
        "https://h" none none ⟨"https://h/p", .GET, []⟩ .GenericError rfl rfl rfl).1
  exact h rfl (fun _ => .ok ⟨200, []⟩)

/-- Claim C10: attaching middleware leaves every compiled artifact of the
endpoint unchanged — `path`, `method`, `query`, `body`, `url`,
`REQUEST_BODY_TYPE`, `RESPONSE_BODY_TYPE` all delegate to the wrapped
endpoint (and the `Response` type parameter `R` is preserved by typing) —
while the middleware acts exactly once on the fully built request before
sending and once on the raw response after receiving. -/
theorem claim_C10 {R : Type} (me : MutatedEndpoint R) (base : String) (c : Client) :
    me.path = me.endpoint.path ∧
    me.method = me.endpoint.method ∧
    me.query = me.endpoint.query ∧
    me.body = me.endpoint.body ∧
    me.url base = me.endpoint.url base ∧
    me.requestBodyType = me.endpoint.requestBodyType ∧
    me.responseBodyType = me.endpoint.responseBodyType ∧
    me.request base = (me.endpoint.request base).bind me.middleware.onRequest ∧
    me.exec c = (do
      let req ← (me.endpoint.request c.base).bind me.middleware.onRequest
      let resp ← Client.execute c.send req
      let resp2 ← me.middleware.onResponse resp
      .ok { response := resp2, ty := me.endpoint.responseBodyType }) := by
  have hreq : ∀ b : String,
      me.request b = (me.endpoint.request b).bind me.middleware.onRequest := by
    intro b
    simp only [MutatedEndpoint.request, Endpoint.request, MutatedEndpoint.path,
      MutatedEndpoint.method, MutatedEndpoint.query, MutatedEndpoint.body]
    cases me.endpoint.query with
    | error e => simp [exceptBind_error, exceptBindFn_error]
    | ok q =>
      cases me.endpoint.body with
      | error e => simp [exceptBind_ok, exceptBind_error, exceptBindFn_error]
      | ok b2 =>
        cases h : build_request b me.endpoint.path me.endpoint.method q b2 with
        | error e =>
          simp [exceptBind_ok, exceptBind_error, exceptBindFn_error, h]
        | ok r =>
          simp [exceptBind_ok, exceptBindFn_ok, h]
  refine ⟨rfl, rfl, rfl, rfl, rfl, rfl, rfl, hreq base, ?_⟩
  simp only [MutatedEndpoint.exec, hreq c.base, exec_mut, MutatedEndpoint.responseBodyType,
    exceptBind_assoc]

end Rustify
